import Mathlib

/-!
Verification of the palette-constrained color-quantization core of `dipc`
against its design specification.

The Rust sources are shallowly embedded: pure functions become Lean
functions, `u8` values become naturals (with explicit bounds or `% 256`
where u8 arithmetic matters), `f32` quantities become exact rationals, and
fallible code returns `Except`.  Computations performed by external crates
(`deltae` distance formulas, `lab` color conversions, `image` codecs) are
not code of this repository; where a claim is independent of their
internals they are abstracted as function parameters, and where a fixed
behavior of theirs matters (for example `image::Frame::new`) it is modelled
from the documented behavior of the crate, as noted at the definition.
-/

/-- CIELAB color triple, the `Lab` struct of src/delta.rs.  The source
stores `f32` components; they are modelled as exact rationals. -/
structure Lab where
  l : ℚ
  a : ℚ
  b : ℚ
deriving DecidableEq, Repr, Inhabited

/-- The constant `std::f32::MAX` used to initialise `min_distance` in
`Lab::to_nearest_palette`: (2 - 2⁻²³)·2¹²⁷ = 2¹²⁸ - 2¹⁰⁴, exactly. -/
def f32MAX : ℚ := 2 ^ 128 - 2 ^ 104

/-- The scan loop of `Lab::to_nearest_palette` (src/delta.rs): walk the
palette in array order keeping the running minimum distance `minD` and the
best color so far, replacing the best only on strict improvement
`delta < min_distance`.  The distance value
`deltae::DeltaE::new(self, color, method).value()` is computed by the
external `deltae` crate; it is abstracted here as the function `d`
(the distance from the fixed input pixel), so every supported `DEMethod`
instantiates it. -/
def nearestScan (d : Lab → ℚ) : List Lab → ℚ → Lab → Lab
  | [], _, best => best
  | c :: rest, minD, best =>
      if d c < minD then nearestScan d rest (d c) c
      else nearestScan d rest minD best

/-- `Lab::to_nearest_palette` (src/delta.rs): `min_distance` starts at
`std::f32::MAX`, `new_color` starts at `self`, then the palette is scanned
in array order.  `dist` abstracts the deltae-crate distance of the selected
method. -/
def Lab.to_nearest_palette (self : Lab) (palette : List Lab)
    (dist : Lab → Lab → ℚ) : Lab :=
  nearestScan (dist self) palette f32MAX self

/-- Index-level mirror of the scan loop: the position of the color that the
loop finally holds in `new_color`, or `none` when no candidate ever beats
the running minimum. -/
def chooseIdx (d : Lab → ℚ) : List Lab → ℚ → Option ℕ
  | [], _ => none
  | c :: rest, minD =>
      if d c < minD then
        match chooseIdx d rest (d c) with
        | none => some 0
        | some k => some (k + 1)
      else
        (chooseIdx d rest minD).map (· + 1)

theorem chooseIdx_eq_none (d : Lab → ℚ) :
    ∀ (l : List Lab) (m : ℚ), chooseIdx d l m = none → ∀ x ∈ l, m ≤ d x := by
  intro l
  induction l with
  | nil => intro m _ x hx; cases hx
  | cons c rest ih =>
    intro m hnone x hx
    by_cases hlt : d c < m
    · exfalso
      simp only [chooseIdx, if_pos hlt] at hnone
      cases hrest : chooseIdx d rest (d c) <;> simp [hrest] at hnone
    · simp only [chooseIdx, if_neg hlt] at hnone
      rcases List.mem_cons.mp hx with rfl | hx
      · exact le_of_not_lt hlt
      · cases hrest : chooseIdx d rest m with
        | none => exact ih m hrest x hx
        | some k => rw [hrest] at hnone; simp at hnone

theorem chooseIdx_eq_some (d : Lab → ℚ) :
    ∀ (l : List Lab) (m : ℚ) (k : ℕ), chooseIdx d l m = some k →
      ∃ hk : k < l.length,
        d (l.get ⟨k, hk⟩) < m ∧
        (∀ i (hi : i < l.length), i < k → d (l.get ⟨k, hk⟩) < d (l.get ⟨i, hi⟩)) ∧
        (∀ i (hi : i < l.length), k < i → d (l.get ⟨k, hk⟩) ≤ d (l.get ⟨i, hi⟩)) := by
  intro l
  induction l with
  | nil => intro m k h; cases h
  | cons c rest ih =>
    intro m k hsome
    by_cases hlt : d c < m
    · simp only [chooseIdx, if_pos hlt] at hsome
      cases hrest : chooseIdx d rest (d c) with
      | none =>
        rw [hrest] at hsome
        simp only [Option.some.injEq] at hsome
        subst hsome
        refine ⟨Nat.succ_pos _, hlt, ?_, ?_⟩
        · intro i hi hik; omega
        · intro i hi hik
          obtain ⟨j, rfl⟩ : ∃ j, i = j + 1 := ⟨i - 1, by omega⟩
          simp only [List.get_cons_succ]
          exact chooseIdx_eq_none d rest (d c) hrest _ (rest.get_mem _ _)
      | some k0 =>
        rw [hrest] at hsome
        simp only [Option.some.injEq] at hsome
        subst hsome
        obtain ⟨hk0, hm0, hfirst0, hlast0⟩ := ih (d c) k0 hrest
        refine ⟨by simpa using Nat.succ_lt_succ hk0, ?_, ?_, ?_⟩
        · simpa using lt_trans hm0 hlt
        · intro i hi hik
          match i with
          | 0 => simpa using hm0
          | j + 1 =>
            simp only [List.get_cons_succ]
            exact hfirst0 j (by simpa using Nat.lt_of_succ_lt_succ hi)
              (Nat.lt_of_succ_lt_succ hik)
        · intro i hi hik
          match i with
          | 0 => omega
          | j + 1 =>
            simp only [List.get_cons_succ]
            exact hlast0 j (by simpa using Nat.lt_of_succ_lt_succ hi)
              (Nat.lt_of_succ_lt_succ hik)
    · simp only [chooseIdx, if_neg hlt] at hsome
      cases hrest : chooseIdx d rest m with
      | none => rw [hrest] at hsome; simp at hsome
      | some k0 =>
        rw [hrest] at hsome
        simp only [Option.map_some', Option.some.injEq] at hsome
        subst hsome
        obtain ⟨hk0, hm0, hfirst0, hlast0⟩ := ih m k0 hrest
        refine ⟨by simpa using Nat.succ_lt_succ hk0, by simpa using hm0, ?_, ?_⟩
        · intro i hi hik
          match i with
          | 0 =>
            simp only [List.get_cons_succ, List.get_cons_zero]
            exact lt_of_lt_of_le hm0 (le_of_not_lt hlt)
          | j + 1 =>
            simp only [List.get_cons_succ]
            exact hfirst0 j (by simpa using Nat.lt_of_succ_lt_succ hi)
              (Nat.lt_of_succ_lt_succ hik)
        · intro i hi hik
          match i with
          | 0 => omega
          | j + 1 =>
            simp only [List.get_cons_succ]
            exact hlast0 j (by simpa using Nat.lt_of_succ_lt_succ hi)
              (Nat.lt_of_succ_lt_succ hik)

theorem nearestScan_eq_chooseIdx (d : Lab → ℚ) :
    ∀ (l : List Lab) (m : ℚ) (best : Lab),
      nearestScan d l m best =
        match chooseIdx d l m with
        | none => best
        | some k => l.getD k best := by
  intro l
  induction l with
  | nil => intro m best; rfl
  | cons c rest ih =>
    intro m best
    by_cases hlt : d c < m
    · simp only [nearestScan, chooseIdx, if_pos hlt]
      rw [ih (d c) c]
      cases hrest : chooseIdx d rest (d c) with
      | none => simp
      | some k =>
        obtain ⟨hk, -, -, -⟩ := chooseIdx_eq_some d rest (d c) k hrest
        simp [List.getD_eq_getElem?_getD, List.getElem?_eq_getElem hk]
    · simp only [nearestScan, chooseIdx, if_neg hlt]
      rw [ih m best]
      cases hrest : chooseIdx d rest m <;> simp

/-- C1: for every input Lab pixel, every palette array, and every distance
method (any distance function, hence in particular each supported
`DEMethod` formula), the nearest-match scan of `Lab::to_nearest_palette`
proceeds in array order and replaces the current best only on strict
improvement, so among entries tied at the minimal distance the one at the
earliest array position is returned: if position `i` attains the minimum,
no earlier position attains it, and some later position `j` ties with it,
the result is the entry at position `i`. -/
theorem to_nearest_palette_first_on_tie
    (dist : Lab → Lab → ℚ) (self : Lab) (pal : List Lab)
    (i j : ℕ) (hi : i < pal.length) (hj : j < pal.length) (hij : i < j)
    (htie : dist self (pal.get ⟨i, hi⟩) = dist self (pal.get ⟨j, hj⟩))
    (hmin : ∀ m (hm : m < pal.length),
      dist self (pal.get ⟨i, hi⟩) ≤ dist self (pal.get ⟨m, hm⟩))
    (hfirst : ∀ m (hm : m < pal.length), m < i →
      dist self (pal.get ⟨i, hi⟩) < dist self (pal.get ⟨m, hm⟩))
    (hfin : dist self (pal.get ⟨i, hi⟩) < f32MAX) :
    Lab.to_nearest_palette self pal dist = pal.get ⟨i, hi⟩ := by
  unfold Lab.to_nearest_palette
  rw [nearestScan_eq_chooseIdx]
  cases hc : chooseIdx (dist self) pal f32MAX with
  | none =>
    exfalso
    exact absurd (chooseIdx_eq_none (dist self) pal f32MAX hc _
      (pal.get_mem _ _)) (not_le.mpr hfin)
  | some k =>
    obtain ⟨hk, _, hkfirst, hklast⟩ := chooseIdx_eq_some (dist self) pal f32MAX k hc
    have hkeq : k = i := by
      rcases Nat.lt_trichotomy k i with h | h | h
      · exact absurd (hklast i hi h) (not_le.mpr (hfirst k hk h))
      · exact h
      · exact absurd (hmin k hk) (not_le.mpr (hkfirst i hi h))
    subst hkeq
    exact List.getD_eq_getElem pal self hk

/-- Witness for C1 at a concrete input: a palette with the same Lab value at
positions 0 and 1 (equal distance from the pixel under any method, here the
constant-zero distance) resolves to the entry at position 0. -/
theorem to_nearest_palette_first_on_tie_witness :
    Lab.to_nearest_palette ⟨1, 0, 0⟩ [⟨0, 0, 0⟩, ⟨0, 0, 0⟩] (fun _ _ => 0) =
      ⟨0, 0, 0⟩ :=
  to_nearest_palette_first_on_tie (fun _ _ => 0) ⟨1, 0, 0⟩
    [⟨0, 0, 0⟩, ⟨0, 0, 0⟩] 0 1 (by decide) (by decide) (by decide) rfl
    (fun m hm => le_refl 0) (fun m hm h => absurd h (Nat.not_lt_zero m))
    (by norm_num [f32MAX])

/-- C10: applied to an empty palette array, `Lab::to_nearest_palette` is
total and returns the input Lab value itself, for every input and every
distance method: the input pixel is the initial best candidate and the scan
loop never executes. -/
theorem to_nearest_palette_empty (dist : Lab → Lab → ℚ) (self : Lab) :
    Lab.to_nearest_palette self [] dist = self := rfl

/-- One RGBA pixel: the four bytes of one `par_chunks_exact_mut(4)` chunk of
the decoded `into_rgba8()` buffer (src/main.rs). -/
structure Pixel where
  r : ℕ
  g : ℕ
  b : ℕ
  alpha : ℕ
deriving DecidableEq, Repr, Inhabited

/-- The body of the per-pixel closure in `main` (src/main.rs, both the
stdout and the progress-bar branch run the identical closure):
`Lab::from(pixel)` → `to_nearest_palette` → `to_rgb()`, then
`bytes[..3].copy_from_slice(&new_rgb)` overwrites R, G, B and leaves the
fourth byte alone.  The sRGB↔CIELAB conversions are computed by the
external `lab` crate (`lab::Lab::from_rgba` ignores the alpha byte); they
are abstracted as the arguments `rgbToLab` and `labToRgb`, and the deltae
distance as `dist`. -/
def perPixel (rgbToLab : ℕ → ℕ → ℕ → Lab) (labToRgb : Lab → ℕ × ℕ × ℕ)
    (palettesLab : List Lab) (dist : Lab → Lab → ℚ) (p : Pixel) : Pixel :=
  let lab := rgbToLab p.r p.g p.b
  let nrgb := labToRgb (lab.to_nearest_palette palettesLab dist)
  ⟨nrgb.1, nrgb.2.1, nrgb.2.2, p.alpha⟩

/-- The sequential denotation of `par_chunks_exact_mut(4).for_each(...)`
over the flat byte buffer: every exact 4-byte chunk is rewritten by the
per-pixel closure `f`; a trailing remainder of fewer than 4 bytes is not
visited by `chunks_exact` and stays as it is. -/
def transformBytes (f : Pixel → Pixel) : List ℕ → List ℕ
  | r :: g :: b :: al :: rest =>
      let q := f ⟨r, g, b, al⟩
      q.r :: q.g :: q.b :: q.alpha :: transformBytes f rest
  | rest => rest

/-- Flatten a list of pixels back into the flat RGBA byte buffer. -/
def flattenPixels : List Pixel → List ℕ
  | [] => []
  | p :: ps => p.r :: p.g :: p.b :: p.alpha :: flattenPixels ps

/-- One scheduled unit of the rayon parallel-for: the worker holding chunk
`i` overwrites pixel `i` of the shared buffer with the result of the
per-pixel closure on that pixel alone. -/
def updatePixel (f : Pixel → Pixel) (ps : List Pixel) (i : ℕ) : List Pixel :=
  ps.set i (f (ps.getD i default))

theorem transformBytes_flattenPixels (f : Pixel → Pixel) :
    ∀ ps : List Pixel, transformBytes f (flattenPixels ps) =
      flattenPixels (ps.map f)
  | [] => rfl
  | p :: ps => by
      simp only [flattenPixels, transformBytes, List.map_cons]
      rw [transformBytes_flattenPixels f ps]

theorem updatePixel_right_comm (f : Pixel → Pixel) (ps : List Pixel)
    (i j : ℕ) :
    updatePixel f (updatePixel f ps i) j = updatePixel f (updatePixel f ps j) i := by
  by_cases hij : i = j
  · subst hij; rfl
  · simp only [updatePixel, List.getD_eq_getElem?_getD]
    rw [List.getElem?_set_ne hij, List.getElem?_set_ne (Ne.symm hij),
      List.set_comm _ _ _ hij]

theorem foldl_updatePixel_shift (f : Pixel → Pixel) :
    ∀ (idxs : List ℕ) (x : Pixel) (l : List Pixel),
      List.foldl (fun acc i => updatePixel f acc (i + 1)) (x :: l) idxs =
        x :: List.foldl (updatePixel f) l idxs
  | [], _, _ => rfl
  | i :: rest, x, l => by
      have hstep : updatePixel f (x :: l) (i + 1) = x :: updatePixel f l i := by
        simp [updatePixel, List.set_cons_succ, List.getD_cons_succ]
      simp only [List.foldl_cons, hstep]
      exact foldl_updatePixel_shift f rest x (updatePixel f l i)

theorem foldl_updatePixel_range (f : Pixel → Pixel) :
    ∀ ps : List Pixel,
      List.foldl (updatePixel f) ps (List.range ps.length) = ps.map f
  | [] => rfl
  | p :: rest => by
      have h0 : updatePixel f (p :: rest) 0 = f p :: rest := by
        simp [updatePixel, List.getD_cons_zero]
      rw [List.length_cons, List.range_succ_eq_map, List.foldl_cons, h0,
        List.foldl_map]
      simp only [Nat.succ_eq_add_one]
      rw [foldl_updatePixel_shift f (List.range rest.length) (f p) rest,
        foldl_updatePixel_range f rest, List.map_cons]

/-- C2: the per-pixel transform is deterministic and schedule-independent.
For every choice of conversion functions, palette Lab array, and distance
method, (a) the chunked byte transform is exactly the pixelwise map of the
pure per-pixel closure, so each pixel's output depends only on that pixel's
own channels and the shared read-only palette array, and (b) applying the
per-chunk updates in any scheduling order whatsoever (any permutation of
the chunk indices, hence any worker count and any work-stealing schedule)
produces the same buffer as the sequential map — so repeated runs are
byte-identical. -/
theorem transform_deterministic_schedule_independent
    (rgbToLab : ℕ → ℕ → ℕ → Lab) (labToRgb : Lab → ℕ × ℕ × ℕ)
    (palettesLab : List Lab) (dist : Lab → Lab → ℚ)
    (ps : List Pixel) (order : List ℕ)
    (hsched : order.Perm (List.range ps.length)) :
    transformBytes (perPixel rgbToLab labToRgb palettesLab dist)
        (flattenPixels ps) =
      flattenPixels (ps.map (perPixel rgbToLab labToRgb palettesLab dist)) ∧
    List.foldl (updatePixel (perPixel rgbToLab labToRgb palettesLab dist))
        ps order =
      ps.map (perPixel rgbToLab labToRgb palettesLab dist) := by
  constructor
  · exact transformBytes_flattenPixels _ ps
  · haveI : RightCommutative
        (updatePixel (perPixel rgbToLab labToRgb palettesLab dist)) :=
      ⟨fun b a₁ a₂ => updatePixel_right_comm _ b a₁ a₂⟩
    rw [hsched.foldl_eq ps]
    exact foldl_updatePixel_range _ ps

/-- Witness for C2 at a concrete input: a two-pixel buffer processed in the
reversed chunk order [1, 0] yields the same bytes as the in-order map. -/
theorem transform_deterministic_witness :
    transformBytes
        (perPixel (fun _ _ _ => ⟨0, 0, 0⟩) (fun _ => (9, 9, 9)) []
          (fun _ _ => 0))
        (flattenPixels [⟨1, 2, 3, 4⟩, ⟨5, 6, 7, 8⟩]) =
      flattenPixels
        (List.map (perPixel (fun _ _ _ => ⟨0, 0, 0⟩) (fun _ => (9, 9, 9)) []
          (fun _ _ => 0)) [⟨1, 2, 3, 4⟩, ⟨5, 6, 7, 8⟩]) ∧
    List.foldl
        (updatePixel (perPixel (fun _ _ _ => ⟨0, 0, 0⟩) (fun _ => (9, 9, 9)) []
          (fun _ _ => 0)))
        [⟨1, 2, 3, 4⟩, ⟨5, 6, 7, 8⟩] [1, 0] =
      List.map (perPixel (fun _ _ _ => ⟨0, 0, 0⟩) (fun _ => (9, 9, 9)) []
          (fun _ _ => 0)) [⟨1, 2, 3, 4⟩, ⟨5, 6, 7, 8⟩] :=
  transform_deterministic_schedule_independent
    (fun _ _ _ => ⟨0, 0, 0⟩) (fun _ => (9, 9, 9)) [] (fun _ _ => 0)
    [⟨1, 2, 3, 4⟩, ⟨5, 6, 7, 8⟩] [1, 0] (by decide)

theorem transformBytes_length (f : Pixel → Pixel) :
    ∀ buf : List ℕ, (transformBytes f buf).length = buf.length
  | [] => rfl
  | [_] => rfl
  | [_, _] => rfl
  | [_, _, _] => rfl
  | _ :: _ :: _ :: _ :: rest => by
      simp only [transformBytes, List.length_cons]
      rw [transformBytes_length f rest]

theorem transformBytes_alpha (f : Pixel → Pixel)
    (hf : ∀ p, (f p).alpha = p.alpha) :
    ∀ (buf : List ℕ) (i : ℕ),
      (transformBytes f buf).getD (4 * i + 3) 0 = buf.getD (4 * i + 3) 0
  | [], _ => rfl
  | [_], _ => rfl
  | [_, _], _ => rfl
  | [_, _, _], _ => rfl
  | r :: g :: b :: al :: rest, 0 => by
      simp only [transformBytes]
      have h3 : 4 * 0 + 3 = 3 := rfl
      rw [h3]
      simp [List.getD_cons_succ, List.getD_cons_zero, hf]
  | r :: g :: b :: al :: rest, i + 1 => by
      have harith : 4 * (i + 1) + 3 = (4 * i + 3) + 1 + 1 + 1 + 1 := by omega
      simp only [transformBytes]
      rw [harith]
      simp only [List.getD_cons_succ]
      exact transformBytes_alpha f hf rest i

/-- C7: for every pixel of the input buffer the transform overwrites only
the three RGB bytes and leaves the fourth (alpha) byte of each 4-byte chunk
unchanged, and the pixel buffer is never resized — for every choice of
conversion functions, palette, and distance method. -/
theorem transform_preserves_alpha_and_size
    (rgbToLab : ℕ → ℕ → ℕ → Lab) (labToRgb : Lab → ℕ × ℕ × ℕ)
    (palettesLab : List Lab) (dist : Lab → Lab → ℚ) (buf : List ℕ) :
    (transformBytes (perPixel rgbToLab labToRgb palettesLab dist) buf).length
        = buf.length ∧
    ∀ i : ℕ,
      (transformBytes (perPixel rgbToLab labToRgb palettesLab dist)
        buf).getD (4 * i + 3) 0 = buf.getD (4 * i + 3) 0 :=
  ⟨transformBytes_length _ buf,
   fun i => transformBytes_alpha (perPixel rgbToLab labToRgb palettesLab dist)
     (fun _ => rfl) buf i⟩

/-- An RGB color, the `image::Rgb<u8>` wrapper around `[u8; 3]` that
`Palette` stores (src/config.rs).  Channels are naturals; every value the
parser produces fits in 8 bits. -/
structure Rgb where
  r : ℕ
  g : ℕ
  b : ℕ
deriving DecidableEq, Repr, Inhabited

/-- Model of `serde_json::Value` restricted to the observations that
src/config.rs makes of it.  `num` carries the `as_u64` view of a JSON
number: `some v` when the number is a nonnegative integer representable in
u64, `none` otherwise (floats, negatives). -/
inductive JValue where
  | str (s : String)
  | num (asU64 : Option ℕ)
  | bool (b : Bool)
  | null
  | arr (xs : List JValue)
  | obj (entries : List (String × JValue))

/-- The error cases of `Palette::try_from` and `parse_palette`
(src/config.rs).  The source reports each case as a formatted `String`
embedding the offending value through the serde_json Debug instance of the
external crate; the model carries the same payloads structurally. -/
inductive ParseErr where
  | hexNotHash (hex : String)
  | hexBadLength (hex : String)
  | hexDigits (hex : String)
  | arrWrongLen (n : ℕ) (xs : List JValue)
  | arrNonNumber (xs : List JValue)
  | arrOverflow (xs : List JValue) (i : ℕ)
  | objMissingKey (key : String) (rest : List (String × JValue))
  | objNonNumber (key : String) (rest : List (String × JValue))
  | objOverflow (key : String) (asU64 : Option ℕ)
  | styleNotObject (style : String)
  | styleErr (style : String) (err : ParseErr)
  | styleNotFound (style : String)

/-- Value of one hexadecimal digit character, as accepted by
`u8::from_str_radix(_, 16)`. -/
def hexDigitVal (c : Char) : Option ℕ :=
  if 48 ≤ c.toNat ∧ c.toNat ≤ 57 then some (c.toNat - 48)
  else if 65 ≤ c.toNat ∧ c.toNat ≤ 70 then some (c.toNat - 55)
  else if 97 ≤ c.toNat ∧ c.toNat ≤ 102 then some (c.toNat - 87)
  else none

def fromStrRadix16Go : List Char → ℕ → Option ℕ
  | [], acc => some acc
  | c :: rest, acc =>
      match hexDigitVal c with
      | none => none
      | some d => fromStrRadix16Go rest (16 * acc + d)

/-- `u8::from_str_radix(s, 16)`: every character must be a hex digit, the
empty string is an error.  At the call sites the string has 1 or 2
characters, so the value is at most 255 and u8 overflow cannot occur. -/
def fromStrRadix16 : List Char → Option ℕ
  | [] => none
  | cs => fromStrRadix16Go cs 0

/-- The hex-string branch of `Palette::try_from` (src/config.rs): check the
leading `#`, require a remaining length of 3 or 6, pick the multiplier 16
for single-digit channels and 1 for two-digit channels, then parse each
channel slice and scale it by the multiplier.  The model works on the
character list of the string; the byte-level slice of the source can
additionally fail inside a multi-byte UTF-8 sequence, a case that collapses
into the hex-digit failure here since such characters are not hex digits. -/
def parseHexColor (hex : String) : Except ParseErr Rgb :=
  let chars := hex.toList
  if chars.head? ≠ some '#' then .error (.hexNotHash hex)
  else
    let color := chars.drop 1
    if color.length = 3 ∨ color.length = 6 then
      let channelLength := color.length / 3
      let multiplier := if channelLength = 1 then 16 else 1
      match fromStrRadix16 (color.take channelLength),
          fromStrRadix16 ((color.drop channelLength).take channelLength),
          fromStrRadix16 ((color.drop (2 * channelLength)).take channelLength) with
      | some v0, some v1, some v2 =>
          .ok ⟨v0 * multiplier, v1 * multiplier, v2 * multiplier⟩
      | _, _, _ => .error (.hexDigits hex)
    else .error (.hexBadLength hex)

/-- One element of the color-array branch: it must be a JSON number whose
`as_u64` value fits u8; a non-number aborts with the whole array embedded,
an unrepresentable number aborts naming the element index. -/
def arrChannel (v : JValue) (i : ℕ) (whole : List JValue) :
    Except ParseErr ℕ :=
  match v with
  | .num (some n) => if n ≤ 255 then .ok n else .error (.arrOverflow whole i)
  | .num none => .error (.arrOverflow whole i)
  | _ => .error (.arrNonNumber whole)

/-- `serde_json::Map::remove`: the map holds each key at most once; removal
drops every entry with that key. -/
def removeKey (key : String) (m : List (String × JValue)) :
    List (String × JValue) :=
  m.filter (fun e => !(e.1 == key))

def lookupKey (key : String) (m : List (String × JValue)) : Option JValue :=
  (m.find? (fun e => e.1 == key)).map (fun e => e.2)

/-- One channel of the r/g/b-object branch: `map.remove(name)` must yield a
JSON number representable in u8.  Returns the channel value and the map
with the key removed, as the source mutates `map` in place. -/
def objChannel (key : String) (m : List (String × JValue)) :
    Except ParseErr (ℕ × List (String × JValue)) :=
  match lookupKey key m with
  | none => .error (.objMissingKey key m)
  | some v =>
      let rest := removeKey key m
      match v with
      | .num (some n) =>
          if n ≤ 255 then .ok (n, rest) else .error (.objOverflow key (some n))
      | .num none => .error (.objOverflow key none)
      | _ => .error (.objNonNumber key rest)

/-- The per-entry color computation of `Palette::try_from` (src/config.rs):
`colorarr` starts as `[0, 0, 0]` and the match on the JSON value fills it
in.  A string is parsed as a `#HEX` color, a 3-element array as channel
numbers, an object through its `r`, `g`, `b` keys; every other shape falls
into the wildcard arm `_ => {}`, which leaves the color black. -/
def parseColorValue : JValue → Except ParseErr Rgb
  | .str hex => parseHexColor hex
  | .arr xs =>
      match xs with
      | [x0, x1, x2] => do
          let v0 ← arrChannel x0 0 xs
          let v1 ← arrChannel x1 1 xs
          let v2 ← arrChannel x2 2 xs
          .ok ⟨v0, v1, v2⟩
      | _ => .error (.arrWrongLen xs.length xs)
  | .obj m => do
      let c0 ← objChannel "r" m
      let c1 ← objChannel "g" c0.2
      let c2 ← objChannel "b" c1.2
      .ok ⟨c0.1, c1.1, c2.1⟩
  | _ => .ok ⟨0, 0, 0⟩

/-- The entry loop of `Palette::try_from`: parse each `(name, value)` pair
in document order, pushing `(name, color)`; the first failure aborts the
whole conversion. -/
def tryFromEntries : List (String × JValue) →
    Except ParseErr (List (String × Rgb))
  | [] => .ok []
  | (name, v) :: rest => do
      let c ← parseColorValue v
      let cs ← tryFromEntries rest
      .ok ((name, c) :: cs)

/-- The `Palette` struct of src/config.rs: an optional style name and the
ordered `(colorName, color)` list. -/
structure Palette where
  name : Option String
  colors : List (String × Rgb)

/-- `Palette::try_from(serde_json::Map<String, Value>)`: the name is left
unset (`None`). -/
def Palette.tryFrom (json : List (String × JValue)) :
    Except ParseErr Palette :=
  (tryFromEntries json).map (fun cs => ⟨none, cs⟩)

/-- The `ColorPaletteStyles` selection enum of src/cli.rs. -/
inductive ColorPaletteStyles where
  | allStyles
  | someStyles (styles : List String)
  | noneStyles

/-- The `All` arm of `parse_palette`: iterate the document entries, require
every value to be an object, parse it and name the palette after its key. -/
def parseAllStyles : List (String × JValue) → Except ParseErr (List Palette)
  | [] => .ok []
  | (style, v) :: rest =>
      match v with
      | .obj m => do
          let cs ← (tryFromEntries m).mapError (ParseErr.styleErr style)
          let out ← parseAllStyles rest
          .ok (⟨some style, cs⟩ :: out)
      | _ => .error (.styleNotObject style)

/-- The `Some` arm of `parse_palette`: for each requested name in caller
order, `json.remove(style)` must yield an object, which is parsed and named
after the style; a missing key — including one consumed by an earlier
occurrence of the same requested name — is the does-not-exist error. -/
def parseSomeStyles (json : List (String × JValue)) :
    List String → Except ParseErr (List Palette)
  | [] => .ok []
  | style :: rest =>
      match lookupKey style json with
      | some (.obj m) => do
          let cs ← (tryFromEntries m).mapError (ParseErr.styleErr style)
          let out ← parseSomeStyles (removeKey style json) rest
          .ok (⟨some style, cs⟩ :: out)
      | _ => .error (.styleNotFound style)

/-- `parse_palette` (src/config.rs): dispatch on the style selection. -/
def parse_palette (json : List (String × JValue)) :
    ColorPaletteStyles → Except ParseErr (List Palette)
  | .noneStyles => (Palette.tryFrom json).map (fun p => [p])
  | .allStyles => parseAllStyles json
  | .someStyles styles => parseSomeStyles json styles

/-- C3 (evaluation of the code at the failing input): the 3-digit hex form
is parsed by scaling each digit by the multiplier 16, not by doubling the
digit (value 17·d).  `#F80` therefore yields channels (240, 128, 0) — not
(255, 136, 0) — and `#FFF` yields (240, 240, 240) rather than white, while
the 6-digit form `#FF8800` does give (255, 136, 0). -/
theorem hex_short_form_scales_by_16 :
    parseColorValue (.str "#F80") = .ok ⟨240, 128, 0⟩ ∧
    ¬ parseColorValue (.str "#F80") = .ok ⟨255, 136, 0⟩ ∧
    parseColorValue (.str "#FFF") = .ok ⟨240, 240, 240⟩ ∧
    parseColorValue (.str "#FF8800") = .ok ⟨255, 136, 0⟩ :=
  ⟨rfl,
   fun h => by
     rw [show parseColorValue (.str "#F80") = .ok ⟨240, 128, 0⟩ from rfl] at h
     simp at h,
   rfl, rfl⟩

/-- C4 (counterexample): with selection `None`, the document
`{"light": {"x": "#FFFFFF"}, "dark": {"x": "#000000"}}` does NOT resolve to
one flat Palette: each nested style object is interpreted as an r/g/b color
object, and resolution fails with the missing-key `r` error on the first
entry. -/
theorem parse_palette_none_nested_doc_fails :
    parse_palette
        [("light", .obj [("x", .str "#FFFFFF")]),
         ("dark", .obj [("x", .str "#000000")])] .noneStyles =
      .error (.objMissingKey "r" [("x", .str "#FFFFFF")]) := rfl

/-- C4 (amended): with StyleSelection None the whole document is parsed as
exactly one Palette whose name is unset — whenever resolution succeeds, the
result is one unnamed Palette whose colors are the parse of the document
itself, interpreted flat. -/
theorem parse_palette_none_one_unnamed
    (json : List (String × JValue)) (pals : List Palette)
    (h : parse_palette json .noneStyles = .ok pals) :
    ∃ cs, tryFromEntries json = .ok cs ∧ pals = [⟨none, cs⟩] := by
  unfold parse_palette Palette.tryFrom at h
  cases hj : tryFromEntries json with
  | error e => rw [hj] at h; simp [Except.map] at h
  | ok cs =>
      rw [hj] at h
      simp only [Except.map] at h
      cases h
      exact ⟨cs, rfl, rfl⟩

/-- Witness for the amended C4 at a concrete input: a flat document of
direct color entries resolves to one unnamed Palette. -/
theorem parse_palette_none_one_unnamed_witness :
    ∃ cs, tryFromEntries [("x", JValue.str "#000000")] = .ok cs ∧
      [(⟨none, [("x", (⟨0, 0, 0⟩ : Rgb))]⟩ : Palette)] = [⟨none, cs⟩] :=
  parse_palette_none_one_unnamed [("x", JValue.str "#000000")]
    [⟨none, [("x", ⟨0, 0, 0⟩)]⟩] rfl

theorem lookupKey_removeKey (key : String) (m : List (String × JValue)) :
    lookupKey key (removeKey key m) = none := by
  unfold lookupKey removeKey
  rw [List.find?_eq_none.mpr]
  · rfl
  · intro x hx
    have hpx := List.of_mem_filter hx
    simp only [Bool.not_eq_true'] at hpx
    simp [hpx]

theorem parseSomeStyles_missing (json : List (String × JValue))
    (style : String) (rest : List String)
    (h : lookupKey style json = none) :
    parseSomeStyles json (style :: rest) = .error (.styleNotFound style) := by
  simp [parseSomeStyles, h]

theorem parseSomeStyles_step (json : List (String × JValue))
    (style : String) (rest : List String)
    (m : List (String × JValue)) (cs : List (String × Rgb))
    (h : lookupKey style json = some (.obj m))
    (h2 : tryFromEntries m = .ok cs) :
    parseSomeStyles json (style :: rest) =
      (parseSomeStyles (removeKey style json) rest).map
        (fun out => ⟨some style, cs⟩ :: out) := by
  simp only [parseSomeStyles, h, h2, Except.mapError]
  cases hrec : parseSomeStyles (removeKey style json) rest <;>
    simp [hrec, Except.map, Bind.bind, Except.bind]

/-- C8: with StyleSelection Some(names), the requested names are processed
in caller order and each successful lookup removes the entry from the
document.  (a) a missing key yields the does-not-exist error naming that
style; (b) a successful lookup of an object entry contributes one Palette
named after the style and the remaining names are resolved against the
document with that entry removed; (c) hence a duplicate requested name
fails at its second occurrence with the same does-not-exist error, because
the first occurrence already consumed the entry. -/
theorem some_styles_ordered_and_consuming :
    (∀ (json : List (String × JValue)) (style : String) (rest : List String),
      lookupKey style json = none →
        parse_palette json (.someStyles (style :: rest)) =
          .error (.styleNotFound style)) ∧
    (∀ (json : List (String × JValue)) (style : String) (rest : List String)
        (m : List (String × JValue)) (cs : List (String × Rgb)),
      lookupKey style json = some (.obj m) → tryFromEntries m = .ok cs →
        parse_palette json (.someStyles (style :: rest)) =
          (parse_palette (removeKey style json) (.someStyles rest)).map
            (fun out => ⟨some style, cs⟩ :: out)) ∧
    (∀ (json : List (String × JValue)) (style : String)
        (m : List (String × JValue)) (cs : List (String × Rgb)),
      lookupKey style json = some (.obj m) → tryFromEntries m = .ok cs →
        parse_palette json (.someStyles [style, style]) =
          .error (.styleNotFound style)) := by
  refine ⟨?_, ?_, ?_⟩
  · intro json style rest h
    exact parseSomeStyles_missing json style rest h
  · intro json style rest m cs h h2
    exact parseSomeStyles_step json style rest m cs h h2
  · intro json style m cs h h2
    show parseSomeStyles json [style, style] = .error (.styleNotFound style)
    rw [parseSomeStyles_step json style [style] m cs h h2,
      parseSomeStyles_missing (removeKey style json) style []
        (lookupKey_removeKey style json)]
    rfl

/-- Witness for C8 at a concrete input: requesting the style `"x"` twice
from a document that defines it once fails at the second occurrence with
the does-not-exist error. -/
theorem some_styles_ordered_and_consuming_witness :
    parse_palette
        [("x", .obj [("c", .arr [.num (some 1), .num (some 2), .num (some 3)])])]
        (.someStyles ["x", "x"]) =
      .error (.styleNotFound "x") :=
  some_styles_ordered_and_consuming.2.2
    [("x", .obj [("c", .arr [.num (some 1), .num (some 2), .num (some 3)])])]
    "x" [("c", .arr [.num (some 1), .num (some 2), .num (some 3)])]
    [("c", ⟨1, 2, 3⟩)] rfl rfl

/-- C9: a color entry whose JSON value has an unknown or unsupported shape
(boolean, null) is not reported as an error — parsing succeeds and the
entry silently becomes black (0,0,0) via the wildcard arm — while string,
3-element-array and r/g/b-object shapes are parsed normally, and malformed
values of those shapes (hex string of length 2, array with a channel
above 255) are rejected. -/
theorem unknown_shapes_silently_black :
    (∀ b, parseColorValue (.bool b) = .ok ⟨0, 0, 0⟩) ∧
    parseColorValue .null = .ok ⟨0, 0, 0⟩ ∧
    tryFromEntries [("c", .bool true)] = .ok [("c", ⟨0, 0, 0⟩)] ∧
    tryFromEntries [("c", .null)] = .ok [("c", ⟨0, 0, 0⟩)] ∧
    parseColorValue (.str "#FF8800") = .ok ⟨255, 136, 0⟩ ∧
    parseColorValue (.arr [.num (some 1), .num (some 2), .num (some 3)]) =
      .ok ⟨1, 2, 3⟩ ∧
    parseColorValue
        (.obj [("r", .num (some 255)), ("g", .num (some 128)),
               ("b", .num (some 0))]) = .ok ⟨255, 128, 0⟩ ∧
    parseColorValue (.str "#12") = .error (.hexBadLength "#12") ∧
    parseColorValue (.arr [.num (some 1), .num (some 2), .num (some 256)]) =
      .error (.arrOverflow [.num (some 1), .num (some 2), .num (some 256)] 2) :=
  ⟨fun b => by cases b <;> rfl, rfl, rfl, rfl, rfl, rfl, rfl, rfl, rfl⟩

/-- The `Ord` comparison of `[u8; 3]` used as the sort key by
`palette.colors.sort_by_key(|(_name, color)| color.0)` (src/main.rs):
lexicographic comparison of the raw channel triple. -/
def rgbLe (x y : Rgb) : Bool :=
  decide (x.r < y.r ∨ (x.r = y.r ∧ (x.g < y.g ∨ (x.g = y.g ∧ x.b ≤ y.b))))

/-- `sort_by_key` on a palette's color list (a stable sort by the raw
channel triple; Rust slice::sort is stable, as is mergeSort). -/
def sortColors (cs : List (String × Rgb)) : List (String × Rgb) :=
  cs.mergeSort (fun a b => rgbLe a.2 b.2)

/-- `dedup_by_key` on the color list (src/main.rs): remove consecutive
entries whose raw channel triples are equal, keeping the first entry of
each run. -/
def dedupColors : List (String × Rgb) → List (String × Rgb)
  | [] => []
  | [x] => [x]
  | x :: y :: rest =>
      if y.2 = x.2 then dedupColors (x :: rest)
      else x :: dedupColors (y :: rest)
termination_by l => l.length

/-- The duplicate-color removal of `main` (src/main.rs, the loop
`palette.colors.sort_by_key(...); palette.colors.dedup_by_key(...)`),
applied to one palette's color list before the flat Lab search array is
built. -/
def normalizeColors (cs : List (String × Rgb)) : List (String × Rgb) :=
  dedupColors (sortColors cs)

theorem rgbLe_trans (a b c : Rgb) (hab : rgbLe a b = true)
    (hbc : rgbLe b c = true) : rgbLe a c = true := by
  simp only [rgbLe, decide_eq_true_eq] at *
  omega

theorem rgbLe_total (a b : Rgb) : (rgbLe a b || rgbLe b a) = true := by
  simp only [rgbLe, Bool.or_eq_true, decide_eq_true_eq]
  omega

theorem rgbLe_antisymm (a b : Rgb) (hab : rgbLe a b = true)
    (hba : rgbLe b a = true) : a = b := by
  obtain ⟨ar, ag, ab⟩ := a
  obtain ⟨br, bg, bb⟩ := b
  simp only [rgbLe, decide_eq_true_eq] at hab hba
  simp only [Rgb.mk.injEq]
  omega

theorem dedupColors_subset :
    ∀ l : List (String × Rgb), ∀ x ∈ dedupColors l, x ∈ l := by
  intro l
  induction l using dedupColors.induct with
  | case1 => intro x hx; simp only [dedupColors] at hx; cases hx
  | case2 y => intro x hx; simpa only [dedupColors] using hx
  | case3 x y rest heq ih =>
      intro z hz
      simp only [dedupColors, if_pos heq] at hz
      rcases List.mem_cons.mp (ih z hz) with h | h
      · exact h ▸ List.mem_cons_self _ _
      · exact List.mem_cons_of_mem _ (List.mem_cons_of_mem _ h)
  | case4 x y rest hne ih =>
      intro z hz
      simp only [dedupColors, if_neg hne] at hz
      rcases List.mem_cons.mp hz with h | h
      · exact h ▸ List.mem_cons_self _ _
      · exact List.mem_cons_of_mem _ (ih z h)

theorem dedupColors_ne_nil :
    ∀ l : List (String × Rgb), l ≠ [] → dedupColors l ≠ [] := by
  intro l
  induction l using dedupColors.induct with
  | case1 => intro h; exact absurd rfl h
  | case2 y => intro _ h; simp only [dedupColors] at h; cases h
  | case3 x y rest heq ih =>
      intro _
      simp only [dedupColors, if_pos heq]
      exact ih (List.cons_ne_nil _ _)
  | case4 x y rest hne ih =>
      intro _
      simp only [dedupColors, if_neg hne]
      exact List.cons_ne_nil _ _

theorem dedupColors_pairwise :
    ∀ l : List (String × Rgb),
      l.Pairwise (fun a b => rgbLe a.2 b.2 = true) →
      (dedupColors l).Pairwise
        (fun a b => rgbLe a.2 b.2 = true ∧ a.2 ≠ b.2) := by
  intro l
  induction l using dedupColors.induct with
  | case1 => intro _; simp only [dedupColors]; exact List.Pairwise.nil
  | case2 y => intro _; simp only [dedupColors]; exact List.pairwise_singleton _ _
  | case3 x y rest heq ih =>
      intro hp
      simp only [dedupColors, if_pos heq]
      exact ih (hp.sublist ((List.sublist_cons_self y rest).cons₂ x))
  | case4 x y rest hne ih =>
      intro hp
      simp only [dedupColors, if_neg hne]
      obtain ⟨hx, hyrest⟩ := List.pairwise_cons.mp hp
      refine List.pairwise_cons.mpr ⟨?_, ih hyrest⟩
      intro z hz
      have hzmem : z ∈ y :: rest := dedupColors_subset _ z hz
      refine ⟨hx z hzmem, ?_⟩
      rcases List.mem_cons.mp hzmem with rfl | hzrest
      · exact fun h => hne h.symm
      · intro hxz
        have hxy : rgbLe x.2 y.2 = true := hx y (List.mem_cons_self y rest)
        have hyz : rgbLe y.2 z.2 = true :=
          (List.pairwise_cons.mp hyrest).1 z hzrest
        exact hne (rgbLe_antisymm y.2 x.2 (hxz ▸ hyz) hxy)

theorem sortColors_pairwise (cs : List (String × Rgb)) :
    (sortColors cs).Pairwise (fun a b => rgbLe a.2 b.2 = true) :=
  List.sorted_mergeSort
    (fun a b c => rgbLe_trans a.2 b.2 c.2)
    (fun a b => rgbLe_total a.2 b.2) cs

theorem normalizeColors_length_one (cs : List (String × Rgb)) (k : Rgb)
    (hne : cs ≠ []) (hall : ∀ x ∈ cs, x.2 = k) :
    (normalizeColors cs).length = 1 := by
  have hsortmem : ∀ x ∈ sortColors cs, x.2 = k := by
    intro x hx
    exact hall x ((List.mergeSort_perm cs _).mem_iff.mp hx)
  have hsortne : sortColors cs ≠ [] := by
    intro h
    have := (List.mergeSort_perm cs (fun a b => rgbLe a.2 b.2)).length_eq
    simp only [sortColors] at h
    rw [h] at this
    exact hne (List.eq_nil_of_length_eq_zero this.symm)
  have hpw := dedupColors_pairwise _ (sortColors_pairwise cs)
  have hdedupne := dedupColors_ne_nil _ hsortne
  have hdedupmem : ∀ x ∈ dedupColors (sortColors cs), x.2 = k := fun x hx =>
    hsortmem x (dedupColors_subset _ x hx)
  unfold normalizeColors
  match hout : dedupColors (sortColors cs) with
  | [] => exact absurd hout hdedupne
  | [x] => rfl
  | x :: y :: t =>
      exfalso
      rw [hout] at hpw hdedupmem
      have hxy := (List.pairwise_cons.mp hpw).1 y (List.mem_cons_self y t)
      exact hxy.2 ((hdedupmem x (List.mem_cons_self _ _)).trans
        (hdedupmem y (List.mem_cons_of_mem _ (List.mem_cons_self y t))).symm)

/-- C6: after the sort-then-dedup normalization of `main`, no two entries
of a palette's color list share an identical raw channel triple; and the
palette `{"a": [1,2,3], "b": [1,2,3]}` parses to two entries that
normalize to exactly one color entry. -/
theorem normalize_no_duplicate_triples :
    (∀ cs : List (String × Rgb),
      (normalizeColors cs).Pairwise (fun a b => a.2 ≠ b.2)) ∧
    tryFromEntries
        [("a", .arr [.num (some 1), .num (some 2), .num (some 3)]),
         ("b", .arr [.num (some 1), .num (some 2), .num (some 3)])] =
      .ok [("a", ⟨1, 2, 3⟩), ("b", ⟨1, 2, 3⟩)] ∧
    (normalizeColors [("a", ⟨1, 2, 3⟩), ("b", ⟨1, 2, 3⟩)]).length = 1 := by
  refine ⟨?_, rfl, ?_⟩
  · intro cs
    exact (dedupColors_pairwise _ (sortColors_pairwise cs)).imp
      (fun h => h.2)
  · exact normalizeColors_length_one _ ⟨1, 2, 3⟩ (by simp) (by decide)

/-- An `image::Frame` of the external image crate, as `convert_gif`
(src/convert_image_format.rs) observes it: an RGBA byte buffer, a delay as
a ratio of milliseconds, and the top-left offset. -/
structure GifFrame where
  buffer : List ℕ
  delayNum : ℕ
  delayDen : ℕ
  left : ℕ
  top : ℕ
deriving DecidableEq, Repr, Inhabited

/-- `image::Frame::new(buffer)` from the external image crate, which
`convert_gif` calls to build each output frame: per the documented behavior
of the crate it constructs a frame without any delay (numerator 0) and with
zero top-left offset. -/
def frameNew (buffer : List ℕ) : GifFrame :=
  { buffer := buffer, delayNum := 0, delayDen := 1, left := 0, top := 0 }

/-- The `Repeat` setting handed to the GIF encoder. -/
inductive GifLoop where
  | infinite
  | finite (n : ℕ)
deriving DecidableEq, Repr

/-- What `convert_gif` hands to the GIF encoder: the repeat setting from
`encoder.set_repeat(...)` and the collected output frames. -/
structure GifOutput where
  loopCount : GifLoop
  frames : List GifFrame

/-- `convert_gif` (src/convert_image_format.rs): each decoded frame is
reduced to its pixel buffer by `frame.into_buffer()` — which discards the
frame's delay and offsets — the per-pixel transform is applied to that
buffer, and a fresh `image::Frame::new` wraps the result; finally the
encoder repeat is set to `Repeat::Infinite` and the frames are encoded.
The source loops with `par_chunks_mut(4)`; on an RGBA buffer (length a
multiple of 4) this visits exactly the 4-byte chunks that
`transformBytes` rewrites, while a trailing partial chunk would make the
source panic at the `[u8; 4]` conversion, a case an RGBA8 frame cannot
produce. -/
def convert_gif (f : Pixel → Pixel) (inputFrames : List GifFrame) :
    GifOutput :=
  { loopCount := .infinite
    frames := inputFrames.map (fun fr => frameNew (transformBytes f fr.buffer)) }

/-- C5 (counterexample): a one-frame GIF whose frame carries a delay of
100ms is re-encoded into a frame whose delay numerator is 0, so the
per-frame delay metadata of the input is NOT carried to the corresponding
output frame. -/
theorem convert_gif_drops_frame_delay :
    ((convert_gif (fun p => p)
        [{ buffer := [10, 20, 30, 128], delayNum := 100, delayDen := 1,
           left := 0, top := 0 }]).frames.getD 0 default).delayNum ≠
      ({ buffer := [10, 20, 30, 128], delayNum := 100, delayDen := 1,
         left := 0, top := 0 } : GifFrame).delayNum := by
  intro h
  simp [convert_gif, frameNew, List.getD] at h

/-- C5 (amended): for every animated GIF input the re-encoded output sets
the loop-count metadata to repeat forever and emits one output frame per
decoded input frame, holding the transformed buffer — but every output
frame is built by `Frame::new` and therefore carries the default metadata
(delay numerator 0, zero offsets) instead of the input frame's
delay/disposal metadata. -/
theorem convert_gif_infinite_loop_default_frames
    (f : Pixel → Pixel) (inputFrames : List GifFrame) :
    (convert_gif f inputFrames).loopCount = .infinite ∧
    (convert_gif f inputFrames).frames =
      inputFrames.map (fun fr => frameNew (transformBytes f fr.buffer)) ∧
    (∀ buf : List ℕ, (frameNew buf).delayNum = 0 ∧ (frameNew buf).left = 0 ∧
      (frameNew buf).top = 0) :=
  ⟨rfl, rfl, fun _ => ⟨rfl, rfl, rfl⟩⟩
